import Mathlib

/- Verification of the bip300301 drivechain client's core reconciliation
   algorithms: the deposit-output accumulation (`get_deposit_outputs`),
   the withdrawal-bundle status reconciliation
   (`get_withdrawal_bundle_statuses`), and the BMM confirmation polling
   loop (`verify_bmm`), all from src/lib.rs, over the data-transfer types
   of src/client.rs.

   Hashes and transaction ids are modelled as natural numbers; amounts
   (u64 satoshis) as naturals (the source performs no arithmetic that can
   overflow: the only subtraction is guarded by `total >= last_total`).
   The external hex / bitcoin-consensus codecs are an oracle (`Codec`),
   matching their role as external collaborators; the RPC responses
   (deposit list, withdrawal lists, getblock polls) are passed as explicit
   lists, matching the values the source receives from the wire. -/

namespace Bip300301

abbrev BlockHash := Nat

abbrev Txid := Nat

/- A decoded transaction output: only the `value` field is read. -/
structure TxOut where
  value : Nat
  deriving DecidableEq, Repr

/- A decoded `bitcoin::Transaction`, restricted to the fields the source
   reads: the output list and the transaction id (`transaction.txid()` is
   a pure function of the transaction, modelled as a field of the decoded
   value). -/
structure Transaction where
  output : List TxOut
  txid : Txid
  deriving DecidableEq, Repr

/- `bitcoin::OutPoint`: (txid, vout). In the source `vout` is
   `deposit.nburnindex as u32`, a truncating usize-to-u32 cast, modelled
   as `% 2 ^ 32`. -/
structure OutPoint where
  txid : Txid
  vout : Nat
  deriving DecidableEq, Repr

/- `Output` from src/lib.rs: a deposit credit (destination, value). -/
structure Output where
  address : String
  value : Nat
  deriving DecidableEq, Repr

/- `WithdrawalBundleStatus` from src/lib.rs. -/
inductive WithdrawalBundleStatus
  | failed
  | confirmed
  deriving DecidableEq, Repr

/- `Deposit` from src/client.rs. -/
structure Deposit where
  hashblock : BlockHash
  nburnindex : Nat
  ntx : Nat
  strdest : String
  txhex : String
  deriving DecidableEq, Repr

/- `SpentWithdrawal` from src/client.rs. -/
structure SpentWithdrawal where
  nsidechain : Nat
  hash : Txid
  hashblock : BlockHash
  deriving DecidableEq, Repr

/- `FailedWithdrawal` from src/client.rs. -/
structure FailedWithdrawal where
  nsidechain : Nat
  hash : Txid
  deriving DecidableEq, Repr

/- The `Error` enum of src/lib.rs (payloads other than the block hash of
   `NoNextBlock` are irrelevant to control flow and dropped). -/
inductive Error
  | jsonrpsee
  | invalidHeaderValue
  | bitcoinConsensusEncode
  | bitcoinHex
  | hex
  | noNextBlock (prevMainHash : BlockHash)
  | ioErr
  deriving DecidableEq, Repr

/- Outcome of running a fallible Rust function: `ok` / `err` mirror
   `Result`; `panic` models a Rust panic (such as an out-of-bounds index),
   which aborts the call without producing a `Result` value. -/
inductive RunResult (α : Type)
  | ok (a : α)
  | err (e : Error)
  | panic
  deriving DecidableEq, Repr

def RunResult.isErr {α : Type} : RunResult α → Bool
  | .err _ => true
  | _ => false

/- The external codec collaborator: `hex::decode` and
   `bitcoin::Transaction::consensus_decode`. Their error payloads do not
   influence control flow, so the error type is `Unit`; on the `Error`
   enum they surface as `Error.hex` resp. `Error.bitcoinConsensusEncode`
   via the `#[from]` conversions. -/
structure Codec where
  hexDecode : String → Except Unit (List Nat)
  consensusDecode : List Nat → Except Unit Transaction

/- `HashMap::insert`: replace the binding if the key is present,
   otherwise add it. The map is modelled as an association list with
   unique keys by construction of `hmInsert`. -/
def hmInsert {κ α : Type} [DecidableEq κ] (m : List (κ × α)) (k : κ) (v : α) :
    List (κ × α) :=
  match m with
  | [] => [(k, v)]
  | (k', v') :: rest => if k' = k then (k, v) :: rest else (k', v') :: hmInsert rest k v

/- `HashMap::get`. -/
def hmLookup {κ α : Type} [DecidableEq κ] (m : List (κ × α)) (k : κ) : Option α :=
  match m with
  | [] => none
  | (k', v') :: rest => if k' = k then some v' else hmLookup rest k

/- The mutable state of the loop in `get_deposit_outputs`
   (src/lib.rs lines 108-110), plus `events`: the chronological list of
   `outputs.insert` calls made so far (instrumentation; `outputs` itself
   is exactly the source's map). -/
structure DepositState where
  lastBlockHash : Option BlockHash
  lastTotal : Nat
  outputs : List (OutPoint × Output)
  events : List (OutPoint × Output)
  deriving DecidableEq, Repr

def initState : DepositState := ⟨none, 0, [], []⟩

/- The non-boundary part of one loop iteration of `get_deposit_outputs`
   (src/lib.rs lines 121-137): read the output value at the burn index
   (a panic when out of range), skip-with-total-update when it is
   strictly below the running total, otherwise emit a credit. -/
def depositCont (st : DepositState) (deposit : Deposit) (transaction : Transaction) :
    RunResult DepositState :=
  match transaction.output[deposit.nburnindex]? with
  | none => .panic
  | some txout =>
    let total := txout.value
    if total < st.lastTotal then
      .ok { st with lastTotal := total }
    else
      let value := total - st.lastTotal
      let outpoint : OutPoint := ⟨transaction.txid, deposit.nburnindex % 2 ^ 32⟩
      let output : Output := ⟨deposit.strdest, value⟩
      .ok ⟨some deposit.hashblock, total,
           hmInsert st.outputs outpoint output,
           st.events ++ [(outpoint, output)]⟩

/- One full loop iteration of `get_deposit_outputs`
   (src/lib.rs lines 111-137): decode the hex, consensus-decode the
   transaction, handle the start-block boundary record (seed the running
   total and `continue`), otherwise fall through to `depositCont`. -/
def depositStep (codec : Codec) (start : Option BlockHash) (st : DepositState)
    (deposit : Deposit) : RunResult DepositState :=
  match codec.hexDecode deposit.txhex with
  | .error _ => .err .hex
  | .ok bytes =>
    match codec.consensusDecode bytes with
    | .error _ => .err .bitcoinConsensusEncode
    | .ok transaction =>
      match start with
      | some s =>
        if deposit.hashblock = s then
          match transaction.output[deposit.nburnindex]? with
          | none => .panic
          | some txout => .ok { st with lastTotal := txout.value }
        else depositCont st deposit transaction
      | none => depositCont st deposit transaction

/- The loop of `get_deposit_outputs` over the deposit records returned by
   `listsidechaindepositsbyblock`, in delivered order. -/
def runDeposits (codec : Codec) (start : Option BlockHash) :
    List Deposit → DepositState → RunResult DepositState
  | [], st => .ok st
  | d :: ds, st =>
    match depositStep codec start st d with
    | .ok st' => runDeposits codec start ds st'
    | .err e => .err e
    | .panic => .panic

/- `get_deposit_outputs` (src/lib.rs lines 93-140). `deposits` is the RPC
   response for the queried (end, start) range; the function returns the
   credit map and the last processed block hash, or aborts. -/
def get_deposit_outputs (codec : Codec) (start : Option BlockHash)
    (deposits : List Deposit) :
    RunResult (List (OutPoint × Output) × Option BlockHash) :=
  match runDeposits codec start deposits initState with
  | .ok st => .ok (st.outputs, st.lastBlockHash)
  | .err e => .err e
  | .panic => .panic

/- `get_withdrawal_bundle_statuses` (src/lib.rs lines 142-155): insert
   Confirmed for every spent withdrawal carrying this sidechain's id,
   then insert Failed for every failed withdrawal (no sidechain filter,
   unconditional insert). -/
def get_withdrawal_bundle_statuses (sidechain_number : Nat)
    (spent : List SpentWithdrawal) (failed : List FailedWithdrawal) :
    List (Txid × WithdrawalBundleStatus) :=
  let statuses := spent.foldl
    (fun m s => if s.nsidechain = sidechain_number then hmInsert m s.hash .confirmed else m)
    []
  failed.foldl (fun m f => hmInsert m f.hash .failed) statuses

/- The polling loop of `verify_bmm` (src/lib.rs lines 44-58), run against
   a trace of `getblock` responses (each either a transport error,
   `nextblockhash = None`, or a successor hash) and a `verifybmm` oracle.
   Returns (outcome, number of getblock queries, number of sleeps); the
   outcome is `none` when the trace is exhausted with the loop still
   waiting (the real loop would keep polling). -/
def verifyBmmRun : List (Except Error (Option BlockHash)) →
    (BlockHash → Except Error Unit) → Option (Except Error Unit) × Nat × Nat
  | [], _ => (none, 0, 0)
  | r :: rest, verify =>
    match r with
    | .error e => (some (.error e), 1, 0)
    | .ok (some h) => (some (verify h), 1, 0)
    | .ok none =>
      let x := verifyBmmRun rest verify
      (x.1, x.2.1 + 1, x.2.2 + 1)

/- The outcome of `verify_bmm` on a poll trace: `none` = still waiting,
   `some r` = the call returned `r`. -/
def verify_bmm (responses : List (Except Error (Option BlockHash)))
    (verify : BlockHash → Except Error Unit) : Option (Except Error Unit) :=
  (verifyBmmRun responses verify).1

/- Concrete codec used for witnesses and counterexamples: "t<n>" decodes
   to a one-output transaction of value n % 1000 and txid n; "oob"
   decodes to a transaction with no outputs (any burn index is out of
   range); "badtx" hex-decodes but fails consensus decoding; anything
   else fails hex decoding. -/
def testCodec : Codec where
  hexDecode s :=
    if s = "t100" then .ok [100]
    else if s = "t50" then .ok [50]
    else if s = "t150" then .ok [150]
    else if s = "t1100" then .ok [1100]
    else if s = "oob" then .ok [0, 0]
    else if s = "badtx" then .ok []
    else .error ()
  consensusDecode bytes :=
    match bytes with
    | [n] => .ok ⟨[⟨n % 1000⟩], n⟩
    | [_, _] => .ok ⟨[], 999⟩
    | _ => .error ()

def d100 : Deposit := ⟨1, 0, 0, "addr1", "t100"⟩

def d50 : Deposit := ⟨2, 0, 0, "addr1", "t50"⟩

def d150 : Deposit := ⟨3, 0, 0, "addr1", "t150"⟩

def d1100 : Deposit := ⟨2, 0, 0, "addr1", "t1100"⟩

def dBadHex : Deposit := ⟨1, 0, 0, "addr1", "zzz"⟩

def dBadTx : Deposit := ⟨1, 0, 0, "addr1", "badtx"⟩

def dOob : Deposit := ⟨1, 0, 0, "addr1", "oob"⟩

def tx100 : Transaction := ⟨[⟨100⟩], 100⟩

def tx150 : Transaction := ⟨[⟨150⟩], 150⟩

/- The record `d` decodes (hex, then consensus) to `tx`, whose output at
   the record's burn index has value `t`. -/
def DecodesTo (codec : Codec) (d : Deposit) (tx : Transaction) (t : Nat) : Prop :=
  (∃ bytes, codec.hexDecode d.txhex = .ok bytes ∧ codec.consensusDecode bytes = .ok tx) ∧
  tx.output[d.nburnindex]? = some ⟨t⟩

/- The record is not the start-block boundary record. -/
def NotBoundary (start : Option BlockHash) (d : Deposit) : Prop :=
  ∀ s, start = some s → d.hashblock ≠ s

/- The outpoint the source builds for an accepted record. -/
def opOf (d : Deposit) (tx : Transaction) : OutPoint :=
  ⟨tx.txid, d.nburnindex % 2 ^ 32⟩

theorem depositCont_skip (st : DepositState) (d : Deposit) (tx : Transaction) (t : Nat)
    (hget : tx.output[d.nburnindex]? = some ⟨t⟩) (hlt : t < st.lastTotal) :
    depositCont st d tx = .ok { st with lastTotal := t } := by
  simp [depositCont, hget, hlt]

theorem depositCont_accept (st : DepositState) (d : Deposit) (tx : Transaction) (t : Nat)
    (hget : tx.output[d.nburnindex]? = some ⟨t⟩) (hle : st.lastTotal ≤ t) :
    depositCont st d tx = .ok ⟨some d.hashblock, t,
      hmInsert st.outputs (opOf d tx) ⟨d.strdest, t - st.lastTotal⟩,
      st.events ++ [(opOf d tx, ⟨d.strdest, t - st.lastTotal⟩)]⟩ := by
  have hnlt : ¬ t < st.lastTotal := Nat.not_lt.mpr hle
  simp [depositCont, hget, hnlt, opOf]

theorem depositStep_eq_cont (codec : Codec) (start : Option BlockHash) (st : DepositState)
    (d : Deposit) (tx : Transaction)
    (hdec : ∃ bytes, codec.hexDecode d.txhex = .ok bytes ∧ codec.consensusDecode bytes = .ok tx)
    (hnb : NotBoundary start d) :
    depositStep codec start st d = depositCont st d tx := by
  obtain ⟨bytes, hhex, hcons⟩ := hdec
  cases start with
  | none => simp [depositStep, hhex, hcons]
  | some s => simp [depositStep, hhex, hcons, hnb s rfl]

theorem depositStep_boundary (codec : Codec) (s : BlockHash) (st : DepositState)
    (d : Deposit) (tx : Transaction) (t : Nat)
    (hdec : DecodesTo codec d tx t) (hb : d.hashblock = s) :
    depositStep codec (some s) st d = .ok { st with lastTotal := t } := by
  obtain ⟨⟨bytes, hhex, hcons⟩, hget⟩ := hdec
  simp [depositStep, hhex, hcons, hb, hget]

theorem depositStep_skip (codec : Codec) (start : Option BlockHash) (st : DepositState)
    (d : Deposit) (tx : Transaction) (t : Nat)
    (hdec : DecodesTo codec d tx t) (hnb : NotBoundary start d) (hlt : t < st.lastTotal) :
    depositStep codec start st d = .ok { st with lastTotal := t } := by
  rw [depositStep_eq_cont codec start st d tx hdec.1 hnb]
  exact depositCont_skip st d tx t hdec.2 hlt

theorem depositStep_accept (codec : Codec) (start : Option BlockHash) (st : DepositState)
    (d : Deposit) (tx : Transaction) (t : Nat)
    (hdec : DecodesTo codec d tx t) (hnb : NotBoundary start d) (hle : st.lastTotal ≤ t) :
    depositStep codec start st d = .ok ⟨some d.hashblock, t,
      hmInsert st.outputs (opOf d tx) ⟨d.strdest, t - st.lastTotal⟩,
      st.events ++ [(opOf d tx, ⟨d.strdest, t - st.lastTotal⟩)]⟩ := by
  rw [depositStep_eq_cont codec start st d tx hdec.1 hnb]
  exact depositCont_accept st d tx t hdec.2 hle

theorem depositStep_hexFail (codec : Codec) (start : Option BlockHash) (st : DepositState)
    (d : Deposit) (h : codec.hexDecode d.txhex = .error ()) :
    depositStep codec start st d = .err .hex := by
  simp [depositStep, h]

theorem depositStep_consFail (codec : Codec) (start : Option BlockHash) (st : DepositState)
    (d : Deposit) (bytes : List Nat) (hh : codec.hexDecode d.txhex = .ok bytes)
    (hc : codec.consensusDecode bytes = .error ()) :
    depositStep codec start st d = .err .bitcoinConsensusEncode := by
  simp [depositStep, hh, hc]

theorem depositStep_oob (codec : Codec) (start : Option BlockHash) (st : DepositState)
    (d : Deposit) (bytes : List Nat) (tx : Transaction)
    (hh : codec.hexDecode d.txhex = .ok bytes) (hc : codec.consensusDecode bytes = .ok tx)
    (hget : tx.output[d.nburnindex]? = none) :
    depositStep codec start st d = .panic := by
  cases start with
  | none => simp [depositStep, hh, hc, depositCont, hget]
  | some s =>
    by_cases hb : d.hashblock = s <;>
      simp [depositStep, hh, hc, depositCont, hb, hget]

theorem runDeposits_cons_ok (codec : Codec) (start : Option BlockHash) (d : Deposit)
    (ds : List Deposit) (st st' : DepositState)
    (h : depositStep codec start st d = .ok st') :
    runDeposits codec start (d :: ds) st = runDeposits codec start ds st' := by
  simp [runDeposits, h]

theorem runDeposits_append (codec : Codec) (start : Option BlockHash)
    (pre rest : List Deposit) : ∀ st : DepositState,
    runDeposits codec start (pre ++ rest) st =
      match runDeposits codec start pre st with
      | .ok st1 => runDeposits codec start rest st1
      | .err e => .err e
      | .panic => .panic := by
  induction pre with
  | nil => intro st; rfl
  | cons d pre ih =>
    intro st
    cases hstep : depositStep codec start st d with
    | ok st1 => simp only [List.cons_append, runDeposits, hstep]; exact ih st1
    | err e => simp [runDeposits, hstep]
    | panic => simp [runDeposits, hstep]

theorem hmLookup_hmInsert_self {κ α : Type} [DecidableEq κ]
    (m : List (κ × α)) (k : κ) (v : α) :
    hmLookup (hmInsert m k v) k = some v := by
  induction m with
  | nil => simp [hmInsert, hmLookup]
  | cons p rest ih =>
    obtain ⟨k', v'⟩ := p
    by_cases h : k' = k
    · subst h; simp [hmInsert, hmLookup]
    · simp [hmInsert, hmLookup, h, ih]

theorem hmLookup_hmInsert_ne {κ α : Type} [DecidableEq κ]
    (m : List (κ × α)) (k k' : κ) (v : α) (hne : k ≠ k') :
    hmLookup (hmInsert m k v) k' = hmLookup m k' := by
  induction m with
  | nil => simp [hmInsert, hmLookup, hne]
  | cons p rest ih =>
    obtain ⟨a, b⟩ := p
    by_cases h : a = k
    · subst h; simp [hmInsert, hmLookup, hne]
    · by_cases h2 : a = k'
      · subst h2; simp [hmInsert, hmLookup, h]
      · simp [hmInsert, hmLookup, h, h2, ih]

theorem hmInsert_of_lookup_none {κ α : Type} [DecidableEq κ]
    (m : List (κ × α)) (k : κ) (v : α) (h : hmLookup m k = none) :
    hmInsert m k v = m ++ [(k, v)] := by
  induction m with
  | nil => rfl
  | cons p rest ih =>
    obtain ⟨a, b⟩ := p
    by_cases hk : a = k
    · simp [hmLookup, hk] at h
    · simp only [hmLookup, if_neg hk] at h
      simp [hmInsert, hk, ih h]

theorem hmLookup_append_single_ne {κ α : Type} [DecidableEq κ]
    (m : List (κ × α)) (k k' : κ) (v : α)
    (h : hmLookup m k' = none) (hne : k ≠ k') :
    hmLookup (m ++ [(k, v)]) k' = none := by
  induction m with
  | nil => simp [hmLookup, hne]
  | cons p rest ih =>
    obtain ⟨a, b⟩ := p
    by_cases hk : a = k'
    · simp [hmLookup, hk] at h
    · simp only [hmLookup, if_neg hk] at h
      simp [hmLookup, hk, ih h]

/- A fold of key-distinct inserts over a map free of those keys is a
   plain append: no insert overwrites anything. -/
theorem foldl_hmInsert_nodup {κ α : Type} [DecidableEq κ] :
    ∀ (l : List (κ × α)) (m : List (κ × α)),
    (∀ k ∈ l.map Prod.fst, hmLookup m k = none) →
    (l.map Prod.fst).Nodup →
    l.foldl (fun m e => hmInsert m e.1 e.2) m = m ++ l := by
  intro l
  induction l with
  | nil => intro m _ _; simp
  | cons p rest ih =>
    intro m habs hnd
    obtain ⟨k, v⟩ := p
    simp only [List.map_cons, List.nodup_cons] at hnd
    have hkm : hmLookup m k = none := habs k (by simp)
    have hrest : ∀ k' ∈ rest.map Prod.fst, hmLookup (m ++ [(k, v)]) k' = none := by
      intro k' hk'
      exact hmLookup_append_single_ne m k k' v (habs k' (by simp [hk']))
        (fun he => hnd.1 (he ▸ hk'))
    calc ((k, v) :: rest).foldl (fun m e => hmInsert m e.1 e.2) m
        = rest.foldl (fun m e => hmInsert m e.1 e.2) (hmInsert m k v) := by
          simp [List.foldl_cons]
      _ = rest.foldl (fun m e => hmInsert m e.1 e.2) (m ++ [(k, v)]) := by
          rw [hmInsert_of_lookup_none m k v hkm]
      _ = (m ++ [(k, v)]) ++ rest := ih (m ++ [(k, v)]) hrest hnd.2
      _ = m ++ ((k, v) :: rest) := by simp

/- Once a key maps to Failed, the failed-withdrawals insertion loop keeps
   it mapped to Failed (every insert writes Failed). -/
theorem hmLookup_foldl_failed_preserved (l : List FailedWithdrawal) :
    ∀ (m : List (Txid × WithdrawalBundleStatus)) (k : Txid),
    hmLookup m k = some .failed →
    hmLookup (l.foldl (fun m f => hmInsert m f.hash .failed) m) k = some .failed := by
  induction l with
  | nil => intro m k h; exact h
  | cons f rest ih =>
    intro m k h
    simp only [List.foldl_cons]
    apply ih
    by_cases hk : f.hash = k
    · rw [hk, hmLookup_hmInsert_self]
    · rw [hmLookup_hmInsert_ne _ _ _ _ hk, h]

/- Every transaction id occurring in the failed list ends up mapped to
   Failed by the failed-withdrawals insertion loop. -/
theorem hmLookup_foldl_failed (l : List FailedWithdrawal) :
    ∀ (m : List (Txid × WithdrawalBundleStatus)) (f : FailedWithdrawal), f ∈ l →
    hmLookup (l.foldl (fun m f => hmInsert m f.hash .failed) m) f.hash = some .failed := by
  induction l with
  | nil => intro m f h; cases h
  | cons g rest ih =>
    intro m f hmem
    simp only [List.foldl_cons]
    rcases List.mem_cons.mp hmem with h | h
    · subst h
      exact hmLookup_foldl_failed_preserved rest _ _ (hmLookup_hmInsert_self _ _ _)
    · exact ih _ f h

/- The last element of a list of totals, seeded with `t0`. -/
def lastD (t0 : Nat) : List Nat → Nat
  | [] => t0
  | t :: rest => lastD t rest

/- The last block hash of a list of accepted records, seeded with `h0`. -/
def lastH (h0 : Option BlockHash) : List BlockHash → Option BlockHash
  | [] => h0
  | h :: rest => lastH (some h) rest

/- The credits an accepted run emits: each record is keyed by its
   outpoint and credited with its total minus the previous total. -/
def creditsOf (t0 : Nat) : List (Deposit × Transaction × Nat) → List (OutPoint × Output)
  | [] => []
  | (d, tx, t) :: rest => (opOf d tx, ⟨d.strdest, t - t0⟩) :: creditsOf t rest

/- Consecutive differences of a list of totals, seeded with `t0`. -/
def diffsOf (t0 : Nat) : List Nat → List Nat
  | [] => []
  | t :: rest => (t - t0) :: diffsOf t rest

theorem creditsOf_map_fst (l : List (Deposit × Transaction × Nat)) :
    ∀ t0, (creditsOf t0 l).map Prod.fst = l.map fun x => opOf x.1 x.2.1 := by
  induction l with
  | nil => intro t0; rfl
  | cons x rest ih =>
    intro t0
    obtain ⟨d, tx, t⟩ := x
    simp [creditsOf, ih t]

theorem creditsOf_map_value (l : List (Deposit × Transaction × Nat)) :
    ∀ t0, (creditsOf t0 l).map (fun e => e.2.value) = diffsOf t0 (l.map fun x => x.2.2) := by
  induction l with
  | nil => intro t0; rfl
  | cons x rest ih =>
    intro t0
    obtain ⟨d, tx, t⟩ := x
    simp [creditsOf, diffsOf, ih t]

theorem le_lastD (ts : List Nat) : ∀ t0, List.Chain (· ≤ ·) t0 ts → t0 ≤ lastD t0 ts := by
  induction ts with
  | nil => intro t0 _; exact Nat.le_refl t0
  | cons t rest ih =>
    intro t0 hc
    obtain ⟨h1, h2⟩ := List.chain_cons.mp hc
    exact Nat.le_trans h1 (ih t h2)

/- Telescoping: the consecutive differences of a non-decreasing total
   sequence sum to (last total - seed). -/
theorem diffsOf_sum (ts : List Nat) : ∀ t0, List.Chain (· ≤ ·) t0 ts →
    (diffsOf t0 ts).sum = lastD t0 ts - t0 := by
  induction ts with
  | nil => intro t0 _; simp [diffsOf, lastD]
  | cons t rest ih =>
    intro t0 hc
    obtain ⟨h1, h2⟩ := List.chain_cons.mp hc
    have hle : t ≤ lastD t rest := le_lastD rest t h2
    simp only [diffsOf, lastD, List.sum_cons, ih t h2]
    omega

/- An accepted run (all records decode, none is the boundary record, the
   totals are non-decreasing from the running total): the loop emits
   exactly the telescoping credits, ends at the last total and the last
   record's block hash, and the map receives exactly the emitted inserts. -/
theorem runDeposits_accepted (codec : Codec) (start : Option BlockHash)
    (l : List (Deposit × Transaction × Nat)) :
    ∀ st : DepositState,
    (∀ x ∈ l, DecodesTo codec x.1 x.2.1 x.2.2) →
    (∀ x ∈ l, NotBoundary start x.1) →
    List.Chain (· ≤ ·) st.lastTotal (l.map fun x => x.2.2) →
    runDeposits codec start (l.map fun x => x.1) st =
      .ok ⟨lastH st.lastBlockHash (l.map fun x => x.1.hashblock),
           lastD st.lastTotal (l.map fun x => x.2.2),
           (creditsOf st.lastTotal l).foldl (fun m e => hmInsert m e.1 e.2) st.outputs,
           st.events ++ creditsOf st.lastTotal l⟩ := by
  induction l with
  | nil => intro st _ _ _; simp [runDeposits, lastH, lastD, creditsOf]
  | cons x rest ih =>
    intro st hdec hnb hchain
    obtain ⟨d, tx, t⟩ := x
    simp only [List.map_cons] at hchain ⊢
    obtain ⟨h1, h2⟩ := List.chain_cons.mp hchain
    have hstep := depositStep_accept codec start st d tx t
      (hdec (d, tx, t) (by simp)) (hnb (d, tx, t) (by simp)) h1
    rw [runDeposits_cons_ok codec start d _ st _ hstep]
    rw [ih _ (fun x hx => hdec x (by simp [hx])) (fun x hx => hnb x (by simp [hx])) h2]
    simp [creditsOf, lastH, lastD, List.foldl_cons]

/- Any successful `depositCont` either leaves the map and the insert log
   untouched, or performs exactly one insert logged at the end. -/
theorem depositCont_ok_shape (st : DepositState) (d : Deposit) (tx : Transaction)
    (st' : DepositState) (h : depositCont st d tx = .ok st') :
    (st'.outputs = st.outputs ∧ st'.events = st.events) ∨
      ∃ op v, st'.outputs = hmInsert st.outputs op v ∧ st'.events = st.events ++ [(op, v)] := by
  unfold depositCont at h
  cases hget : tx.output[d.nburnindex]? with
  | none => rw [hget] at h; cases h
  | some txout =>
    rw [hget] at h
    simp only at h
    by_cases hlt : txout.value < st.lastTotal
    · rw [if_pos hlt] at h
      injection h with h
      subst h
      left; exact ⟨rfl, rfl⟩
    · rw [if_neg hlt] at h
      injection h with h
      subst h
      right; exact ⟨_, _, rfl, rfl⟩

/- Any successful `depositStep` either leaves the map and the insert log
   untouched, or performs exactly one insert logged at the end. -/
theorem depositStep_ok_shape (codec : Codec) (start : Option BlockHash)
    (st : DepositState) (d : Deposit) (st' : DepositState)
    (h : depositStep codec start st d = .ok st') :
    (st'.outputs = st.outputs ∧ st'.events = st.events) ∨
      ∃ op v, st'.outputs = hmInsert st.outputs op v ∧ st'.events = st.events ++ [(op, v)] := by
  unfold depositStep at h
  cases hh : codec.hexDecode d.txhex with
  | error e => rw [hh] at h; cases h
  | ok bytes =>
    rw [hh] at h
    dsimp only at h
    cases hc : codec.consensusDecode bytes with
    | error e => rw [hc] at h; cases h
    | ok tx =>
      rw [hc] at h
      dsimp only at h
      cases start with
      | none => exact depositCont_ok_shape st d tx st' h
      | some s =>
        dsimp only at h
        by_cases hb : d.hashblock = s
        · rw [if_pos hb] at h
          cases hget : tx.output[d.nburnindex]? with
          | none => rw [hget] at h; cases h
          | some txout =>
            rw [hget] at h
            injection h with h
            subst h
            left; exact ⟨rfl, rfl⟩
        · rw [if_neg hb] at h
          exact depositCont_ok_shape st d tx st' h

/- Invariant of the deposit loop: the map always equals the fold of the
   insert log over the empty map. -/
theorem runDeposits_outputs_inv (codec : Codec) (start : Option BlockHash)
    (ds : List Deposit) : ∀ st st' : DepositState,
    runDeposits codec start ds st = .ok st' →
    st.outputs = st.events.foldl (fun m e => hmInsert m e.1 e.2) [] →
    st'.outputs = st'.events.foldl (fun m e => hmInsert m e.1 e.2) [] := by
  induction ds with
  | nil =>
    intro st st' h hinv
    simp only [runDeposits] at h
    injection h with h
    subst h
    exact hinv
  | cons d ds ih =>
    intro st st' h hinv
    simp only [runDeposits] at h
    cases hstep : depositStep codec start st d with
    | ok st1 =>
      rw [hstep] at h
      rcases depositStep_ok_shape codec start st d st1 hstep with
        ⟨ho, he⟩ | ⟨op, v, ho, he⟩
      · exact ih st1 st' h (by rw [ho, he]; exact hinv)
      · refine ih st1 st' h ?_
        rw [ho, he, List.foldl_append, ← hinv]
        rfl
    | err e => rw [hstep] at h; cases h
    | panic => rw [hstep] at h; cases h

/- The poll counter of the BMM loop: `k` empty polls prepended to a trace
   add `k` getblock queries and `k` sleeps, and leave the outcome of the
   remaining trace unchanged. -/
theorem verifyBmmRun_replicate_append (verify : BlockHash → Except Error Unit)
    (k : Nat) (l : List (Except Error (Option BlockHash))) :
    verifyBmmRun (List.replicate k (.ok none) ++ l) verify =
      ((verifyBmmRun l verify).1,
       (verifyBmmRun l verify).2.1 + k, (verifyBmmRun l verify).2.2 + k) := by
  induction k with
  | zero => simp
  | succ k ih =>
    simp only [List.replicate_succ, List.cons_append, verifyBmmRun, List.append_eq, ih]
    simp [Nat.add_assoc]

theorem verifyBmmRun_replicate (verify : BlockHash → Except Error Unit) (k : Nat) :
    verifyBmmRun (List.replicate k (.ok none)) verify = (none, k, k) := by
  have h := verifyBmmRun_replicate_append verify k []
  simpa [verifyBmmRun] using h

/-- C1 counterexample: inserting the stale record d50 (cumulative total 50)
between d100 and d150 changes the output: the credit for d150 becomes 100
instead of 50, because the skip branch lowers the running total to 50
(src/lib.rs line 123), so the output is not the same as with d50 removed. -/
theorem claim1_counterexample :
    get_deposit_outputs testCodec none [d100, d50, d150] ≠
      get_deposit_outputs testCodec none [d100, d150] := by
  decide

/-- C1, corrected: in `get_deposit_outputs`, a non-boundary record whose
cumulative total is strictly below the running total is skipped — it emits
no credit and leaves the credit map, the insert log and the last block hash
unchanged — but, contrary to the claim, the running total IS updated to the
record's (smaller) total, so removing the record can change the credits of
later records. -/
theorem claim1_stale_skip_updates_running_total
    (codec : Codec) (start : Option BlockHash) (st : DepositState)
    (d : Deposit) (tx : Transaction) (t : Nat)
    (hdec : DecodesTo codec d tx t) (hnb : NotBoundary start d)
    (hlt : t < st.lastTotal) :
    depositStep codec start st d = .ok { st with lastTotal := t } :=
  depositStep_skip codec start st d tx t hdec hnb hlt

theorem claim1_witness :
    depositStep testCodec none ⟨some 1, 100, [], []⟩ d50 = .ok ⟨some 1, 50, [], []⟩ :=
  claim1_stale_skip_updates_running_total testCodec none ⟨some 1, 100, [], []⟩ d50
    ⟨[⟨50⟩], 50⟩ 50 ⟨⟨[50], rfl, rfl⟩, rfl⟩ (fun _ hs => Option.noConfusion hs)
    (by decide)

/-- C2 counterexample: with sidechain id 3, spent withdrawals [(3, tx 5,
block 7)] and failed withdrawals [(3, tx 5)], the returned status of tx 5
is Failed, not Confirmed: the failed-list pass (src/lib.rs line 152)
overwrites the Confirmed entry unconditionally. -/
theorem claim2_counterexample :
    hmLookup (get_withdrawal_bundle_statuses 3 [⟨3, 5, 7⟩] [⟨3, 5⟩]) 5 =
        some .failed ∧
      hmLookup (get_withdrawal_bundle_statuses 3 [⟨3, 5, 7⟩] [⟨3, 5⟩]) 5 ≠
        some .confirmed := by
  decide

/-- C2, corrected: confirmed entries are inserted first, but a failed entry
is inserted unconditionally and overwrites an existing Confirmed entry, so
a transaction id present both in the spent list (with this sidechain's id)
and in the failed list resolves to Failed, not Confirmed. -/
theorem claim2_failed_overwrites_confirmed
    (n : Nat) (spent : List SpentWithdrawal) (failed : List FailedWithdrawal)
    (s : SpentWithdrawal) (f : FailedWithdrawal)
    (_hs : s ∈ spent) (_hsn : s.nsidechain = n) (hf : f ∈ failed) (hfs : f.hash = s.hash) :
    hmLookup (get_withdrawal_bundle_statuses n spent failed) s.hash = some .failed := by
  unfold get_withdrawal_bundle_statuses
  rw [← hfs]
  exact hmLookup_foldl_failed failed _ f hf

theorem claim2_witness :
    hmLookup (get_withdrawal_bundle_statuses 3 [⟨3, 9, 7⟩] [⟨3, 9⟩]) 9 = some .failed :=
  claim2_failed_overwrites_confirmed 3 [⟨3, 9, 7⟩] [⟨3, 9⟩] ⟨3, 9, 7⟩ ⟨3, 9⟩
    (by decide) rfl (by decide) rfl

/-- C3 counterexample: a record whose burn index is out of range for its
decoded transaction makes `get_deposit_outputs` abort by an
index-out-of-bounds panic (src/lib.rs line 117/121 indexes the output
vector directly), not by returning a codec error value. -/
theorem claim3_counterexample :
    get_deposit_outputs testCodec none [dOob] = .panic ∧
      (get_deposit_outputs testCodec none [dOob]).isErr = false := by
  decide

/-- C3, corrected: a record with malformed hex aborts the whole
reconciliation call with the distinct codec error `Error.hex`, and a
record whose bytes fail transaction decoding aborts it with
`Error.bitcoinConsensusEncode`; but a record whose burn index is out of
range aborts by a panic, not by an error value. In every case the aborted
call returns no partial credit set. -/
theorem claim3_decode_failures_abort
    (codec : Codec) (start : Option BlockHash) (pre : List Deposit)
    (st : DepositState) (d : Deposit) (post : List Deposit)
    (hpre : runDeposits codec start pre initState = .ok st) :
    (codec.hexDecode d.txhex = .error () →
      get_deposit_outputs codec start (pre ++ d :: post) = .err .hex) ∧
    (∀ bytes, codec.hexDecode d.txhex = .ok bytes →
      codec.consensusDecode bytes = .error () →
      get_deposit_outputs codec start (pre ++ d :: post) = .err .bitcoinConsensusEncode) ∧
    (∀ bytes tx, codec.hexDecode d.txhex = .ok bytes →
      codec.consensusDecode bytes = .ok tx → tx.output[d.nburnindex]? = none →
      get_deposit_outputs codec start (pre ++ d :: post) = .panic) := by
  refine ⟨?_, ?_, ?_⟩
  · intro hh
    unfold get_deposit_outputs
    rw [runDeposits_append codec start pre (d :: post), hpre]
    simp [runDeposits, depositStep_hexFail codec start st d hh]
  · intro bytes hh hc
    unfold get_deposit_outputs
    rw [runDeposits_append codec start pre (d :: post), hpre]
    simp [runDeposits, depositStep_consFail codec start st d bytes hh hc]
  · intro bytes tx hh hc hget
    unfold get_deposit_outputs
    rw [runDeposits_append codec start pre (d :: post), hpre]
    simp [runDeposits, depositStep_oob codec start st d bytes tx hh hc hget]

theorem claim3_witness :
    get_deposit_outputs testCodec none ([] ++ dBadHex :: []) = .err .hex ∧
    get_deposit_outputs testCodec none ([] ++ dBadTx :: []) = .err .bitcoinConsensusEncode ∧
    get_deposit_outputs testCodec none ([] ++ dOob :: []) = .panic :=
  ⟨(claim3_decode_failures_abort testCodec none [] initState dBadHex [] rfl).1 rfl,
   (claim3_decode_failures_abort testCodec none [] initState dBadTx [] rfl).2.1 [] rfl rfl,
   (claim3_decode_failures_abort testCodec none [] initState dOob [] rfl).2.2
     [0, 0] ⟨[], 999⟩ rfl rfl rfl⟩

/-- C4, confirmed: an accepted run (every record decodes, none is the
start-boundary record, totals non-decreasing from the seed t0, outpoints
pairwise distinct) emits for each record exactly (its total - the running
total), the returned map holds exactly those credits, and their values sum
to (last total - t0). -/
theorem claim4_monotonic_diff
    (codec : Codec) (start : Option BlockHash)
    (l : List (Deposit × Transaction × Nat)) (t0 : Nat)
    (hdec : ∀ x ∈ l, DecodesTo codec x.1 x.2.1 x.2.2)
    (hnb : ∀ x ∈ l, NotBoundary start x.1)
    (hchain : List.Chain (· ≤ ·) t0 (l.map fun x => x.2.2))
    (hnd : (l.map fun x => opOf x.1 x.2.1).Nodup) :
    runDeposits codec start (l.map fun x => x.1) ⟨none, t0, [], []⟩ =
      .ok ⟨lastH none (l.map fun x => x.1.hashblock), lastD t0 (l.map fun x => x.2.2),
           creditsOf t0 l, creditsOf t0 l⟩ ∧
    (creditsOf t0 l).map (fun e => e.2.value) = diffsOf t0 (l.map fun x => x.2.2) ∧
    ((creditsOf t0 l).map fun e => e.2.value).sum = lastD t0 (l.map fun x => x.2.2) - t0 := by
  have hrun := runDeposits_accepted codec start l ⟨none, t0, [], []⟩ hdec hnb hchain
  have hkeys : ((creditsOf t0 l).map Prod.fst).Nodup := by
    rw [creditsOf_map_fst]; exact hnd
  have hfold := foldl_hmInsert_nodup (creditsOf t0 l)
    ([] : List (OutPoint × Output)) (fun k _ => rfl) hkeys
  refine ⟨?_, creditsOf_map_value l t0, ?_⟩
  · simpa [hfold] using hrun
  · rw [creditsOf_map_value l t0]
    exact diffsOf_sum _ t0 hchain

def exL : List (Deposit × Transaction × Nat) := [(d100, tx100, 100), (d150, tx150, 150)]

theorem claim4_witness :
    runDeposits testCodec none (exL.map fun x => x.1) ⟨none, 0, [], []⟩ =
      .ok ⟨lastH none (exL.map fun x => x.1.hashblock), lastD 0 (exL.map fun x => x.2.2),
           creditsOf 0 exL, creditsOf 0 exL⟩ ∧
    (creditsOf 0 exL).map (fun e => e.2.value) = diffsOf 0 (exL.map fun x => x.2.2) ∧
    ((creditsOf 0 exL).map fun e => e.2.value).sum = lastD 0 (exL.map fun x => x.2.2) - 0 :=
  claim4_monotonic_diff testCodec none exL 0
    (by
      intro x hx
      simp only [exL, List.mem_cons, List.not_mem_nil, or_false] at hx
      rcases hx with rfl | rfl
      · exact ⟨⟨[100], rfl, rfl⟩, rfl⟩
      · exact ⟨⟨[150], rfl, rfl⟩, rfl⟩)
    (fun x _ _ hs => Option.noConfusion hs)
    (List.Chain.cons (by decide) (List.Chain.cons (by decide) List.Chain.nil))
    (by decide)

/-- C5, confirmed: a record whose block hash equals the start bound emits
no credit and leaves the map and the last block hash unchanged; it only
seeds the running total with its output value, so a subsequent accepted
record with total t' emits the single credit t' - t keyed by its own
outpoint, with the last hash set to that record's block (Scenario B). -/
theorem claim5_boundary_seeds_running_total
    (codec : Codec) (s : BlockHash) (st : DepositState)
    (d : Deposit) (tx : Transaction) (t : Nat)
    (d' : Deposit) (tx' : Transaction) (t' : Nat)
    (hdec : DecodesTo codec d tx t) (hb : d.hashblock = s)
    (hdec' : DecodesTo codec d' tx' t') (hb' : d'.hashblock ≠ s) (hle : t ≤ t') :
    depositStep codec (some s) st d = .ok { st with lastTotal := t } ∧
    runDeposits codec (some s) [d, d'] initState =
      .ok ⟨some d'.hashblock, t',
           [(opOf d' tx', ⟨d'.strdest, t' - t⟩)],
           [(opOf d' tx', ⟨d'.strdest, t' - t⟩)]⟩ := by
  refine ⟨depositStep_boundary codec s st d tx t hdec hb, ?_⟩
  have h1 : depositStep codec (some s) initState d = .ok ⟨none, t, [], []⟩ :=
    depositStep_boundary codec s initState d tx t hdec hb
  have hnb' : NotBoundary (some s) d' := fun s2 hs2 => (Option.some.inj hs2) ▸ hb'
  have h2 : depositStep codec (some s) ⟨none, t, [], []⟩ d' =
      .ok ⟨some d'.hashblock, t',
           [(opOf d' tx', ⟨d'.strdest, t' - t⟩)],
           [(opOf d' tx', ⟨d'.strdest, t' - t⟩)]⟩ :=
    depositStep_accept codec (some s) ⟨none, t, [], []⟩ d' tx' t' hdec' hnb' hle
  rw [runDeposits_cons_ok codec (some s) d [d'] initState _ h1,
    runDeposits_cons_ok codec (some s) d' [] _ _ h2]
  rfl

theorem claim5_witness :
    depositStep testCodec (some 1) ⟨some 9, 7, [], []⟩ d100 = .ok ⟨some 9, 100, [], []⟩ ∧
    runDeposits testCodec (some 1) [d100, d150] initState =
      .ok ⟨some 3, 150, [(⟨150, 0⟩, ⟨"addr1", 50⟩)], [(⟨150, 0⟩, ⟨"addr1", 50⟩)]⟩ :=
  claim5_boundary_seeds_running_total testCodec 1 ⟨some 9, 7, [], []⟩
    d100 ⟨[⟨100⟩], 100⟩ 100 d150 ⟨[⟨150⟩], 150⟩ 150
    ⟨⟨[100], rfl, rfl⟩, rfl⟩ rfl ⟨⟨[150], rfl, rfl⟩, rfl⟩ (by decide) (by decide)

/-- C6, confirmed: any finite number of "no successor yet" polls leaves the
BMM loop still waiting and never produces an error, while, once a successor
appears, a failing verification query makes the call return that failure
immediately, whatever the rest of the trace — so empty polls followed by a
failing verification yield the verification failure, not a timeout. -/
theorem claim6_no_successor_retried_failure_terminal
    (k : Nat) (h : BlockHash) (rest : List (Except Error (Option BlockHash)))
    (verify : BlockHash → Except Error Unit) (e : Error) (hv : verify h = .error e) :
    verify_bmm (List.replicate k (.ok none)) verify = none ∧
    verify_bmm (List.replicate k (.ok none) ++ .ok (some h) :: rest) verify =
      some (.error e) := by
  constructor
  · unfold verify_bmm
    rw [verifyBmmRun_replicate]
  · unfold verify_bmm
    rw [verifyBmmRun_replicate_append]
    simp [verifyBmmRun, hv]

theorem claim6_witness :
    verify_bmm (List.replicate 30 (.ok none)) (fun _ => .error .jsonrpsee) = none ∧
    verify_bmm (List.replicate 30 (.ok none) ++ .ok (some 7) :: [])
      (fun _ => .error .jsonrpsee) = some (.error .jsonrpsee) :=
  claim6_no_successor_retried_failure_terminal 30 7 []
    (fun _ => .error .jsonrpsee) .jsonrpsee rfl

/-- C7, confirmed: if the port reports no successor for the first k
getblock queries and a successor on the next one, the loop issues exactly
k+1 getblock queries, sleeping the polling interval exactly k times (once
between each pair of consecutive queries), and then submits the
verification query for the successor. -/
theorem claim7_poll_count
    (k : Nat) (h : BlockHash) (rest : List (Except Error (Option BlockHash)))
    (verify : BlockHash → Except Error Unit) :
    verifyBmmRun (List.replicate k (.ok none) ++ .ok (some h) :: rest) verify =
      (some (verify h), k + 1, k) := by
  rw [verifyBmmRun_replicate_append]
  simp [verifyBmmRun, Nat.add_comm]

/-- C8 counterexample: the sequence [d100, d100] (the same record twice,
equal totals) makes the loop emit two credits with the same outpoint; the
second (value 0) overwrites the first (value 100) in the returned map, so
keys do not correspond one-to-one to emitted credits. -/
theorem claim8_counterexample :
    runDeposits testCodec none [d100, d100] initState =
      .ok ⟨some 1, 100,
           [(⟨100, 0⟩, ⟨"addr1", 0⟩)],
           [(⟨100, 0⟩, ⟨"addr1", 100⟩), (⟨100, 0⟩, ⟨"addr1", 0⟩)]⟩ := by
  decide

/-- C8, corrected: the no-overwrite invariant is conditional, not
universal: when the outpoints of the emitted credits are pairwise distinct,
the returned map contains exactly the emitted credits one-for-one and no
insertion overwrites an earlier one; with duplicate outpoints (equal-total
duplicate records, see the counterexample) a later insert does overwrite an
earlier credit. -/
theorem claim8_distinct_outpoints_no_overwrite
    (codec : Codec) (start : Option BlockHash) (ds : List Deposit) (st : DepositState)
    (hrun : runDeposits codec start ds initState = .ok st)
    (hnd : (st.events.map Prod.fst).Nodup) :
    st.outputs = st.events := by
  have hinv := runDeposits_outputs_inv codec start ds initState st hrun rfl
  rw [hinv, foldl_hmInsert_nodup st.events [] (fun k _ => rfl) hnd]
  simp

theorem claim8_witness :
    runDeposits testCodec none [d100, d150] initState =
      .ok ⟨some 3, 150,
           [(⟨100, 0⟩, ⟨"addr1", 100⟩), (⟨150, 0⟩, ⟨"addr1", 50⟩)],
           [(⟨100, 0⟩, ⟨"addr1", 100⟩), (⟨150, 0⟩, ⟨"addr1", 50⟩)]⟩ ∧
    (⟨some 3, 150,
      [(⟨100, 0⟩, ⟨"addr1", 100⟩), (⟨150, 0⟩, ⟨"addr1", 50⟩)],
      [(⟨100, 0⟩, ⟨"addr1", 100⟩), (⟨150, 0⟩, ⟨"addr1", 50⟩)]⟩ : DepositState).outputs =
    (⟨some 3, 150,
      [(⟨100, 0⟩, ⟨"addr1", 100⟩), (⟨150, 0⟩, ⟨"addr1", 50⟩)],
      [(⟨100, 0⟩, ⟨"addr1", 100⟩), (⟨150, 0⟩, ⟨"addr1", 50⟩)]⟩ : DepositState).events :=
  ⟨by decide,
   claim8_distinct_outpoints_no_overwrite testCodec none [d100, d150]
     ⟨some 3, 150,
      [(⟨100, 0⟩, ⟨"addr1", 100⟩), (⟨150, 0⟩, ⟨"addr1", 50⟩)],
      [(⟨100, 0⟩, ⟨"addr1", 100⟩), (⟨150, 0⟩, ⟨"addr1", 50⟩)]⟩
     (by decide) (by decide)⟩

/-- C9 counterexample: after d100 (total 100), the record d1100 carries the
equal total 100 and is NOT skipped: it emits a zero-value credit keyed by
its own outpoint and updates the last-processed block hash to its block
(2), contradicting the claim that an equal total is treated as stale. -/
theorem claim9_counterexample :
    runDeposits testCodec none [d100, d1100] initState =
      .ok ⟨some 2, 100,
           [(⟨100, 0⟩, ⟨"addr1", 100⟩), (⟨1100, 0⟩, ⟨"addr1", 0⟩)],
           [(⟨100, 0⟩, ⟨"addr1", 100⟩), (⟨1100, 0⟩, ⟨"addr1", 0⟩)]⟩ := by
  decide

/-- C9, corrected: only a strictly lower total is treated as stale (the
source test is `total < last_total`); a non-boundary record whose total
EQUALS the running total is accepted: it emits a credit of value 0 keyed by
its outpoint and updates the last-processed block hash to its own block. -/
theorem claim9_equal_total_emits_zero_credit
    (codec : Codec) (start : Option BlockHash) (st : DepositState)
    (d : Deposit) (tx : Transaction)
    (hdec : DecodesTo codec d tx st.lastTotal) (hnb : NotBoundary start d) :
    depositStep codec start st d =
      .ok ⟨some d.hashblock, st.lastTotal,
           hmInsert st.outputs (opOf d tx) ⟨d.strdest, 0⟩,
           st.events ++ [(opOf d tx, ⟨d.strdest, 0⟩)]⟩ := by
  have h := depositStep_accept codec start st d tx st.lastTotal hdec hnb (Nat.le_refl _)
  simpa using h

theorem claim9_witness :
    depositStep testCodec none ⟨some 1, 100, [], []⟩ d1100 =
      .ok ⟨some 2, 100, [(⟨1100, 0⟩, ⟨"addr1", 0⟩)], [(⟨1100, 0⟩, ⟨"addr1", 0⟩)]⟩ :=
  claim9_equal_total_emits_zero_credit testCodec none ⟨some 1, 100, [], []⟩ d1100
    ⟨[⟨100⟩], 1100⟩ ⟨⟨[1100], rfl, rfl⟩, rfl⟩ (fun _ hs => Option.noConfusion hs)

/-- C10, confirmed: only the spent-withdrawals pass filters by the
façade's sidechain id; the failed-withdrawals pass inserts every entry, so
a failed withdrawal whose nsidechain differs from the façade's
sidechain_number still appears in the returned map as Failed. -/
theorem claim10_failed_ignores_sidechain
    (n : Nat) (spent : List SpentWithdrawal) (failed : List FailedWithdrawal)
    (f : FailedWithdrawal) (hf : f ∈ failed) (_hne : f.nsidechain ≠ n) :
    hmLookup (get_withdrawal_bundle_statuses n spent failed) f.hash = some .failed := by
  unfold get_withdrawal_bundle_statuses
  exact hmLookup_foldl_failed failed _ f hf

theorem claim10_witness :
    hmLookup (get_withdrawal_bundle_statuses 3 [] [⟨4, 11⟩]) 11 = some .failed :=
  claim10_failed_ignores_sidechain 3 [] [⟨4, 11⟩] ⟨4, 11⟩ (by decide) (by decide)

end Bip300301
